import Mathlib

/-!
# Verification of the ruffle AVM2 core (`src/core/src/avm2.rs`, `src/core/src/avm1/string.rs`)

Shallow embedding of the excerpted ActionScript VM core:

* the `Avm2` interpreter state (operand stack, global domain, optional
  system-prototype cache) and its stack discipline (`push`, `pop`, `pop_args`);
* `prototypes()` with its panic-on-uninitialized behaviour;
* `load_abc` and its descending-index script instantiation / lazy-vs-eager
  global initialization (the `TranslationUnit` / `Script` / `Domain` internals
  and the external bytecode parser are not part of the excerpt, so they are
  modelled from the specification, as noted on each such definition);
* the two-form `Avm1String` text value and its content-based equality.

The Rust `Vec` operand stack pushes and pops at its end; it is embedded as a
Lean `List` whose head is the top of the stack.
-/

namespace Ruffle

/-- Modelled from the spec: tagged union of runtime values
(undefined, null, boolean, number, integer, text, object-reference).
The source file `value.rs` is not in the excerpt; the floating-point
payload of the number variant is abstracted to its raw bit pattern,
which no claim inspects. -/
inductive Value where
  | undefined
  | null
  | boolean (b : Bool)
  | number (bits : Nat)
  | integer (i : Int)
  | text (s : String)
  | object (id : Nat)
deriving DecidableEq, Repr

/-- Modelled from the spec: a `Domain` maps qualified names to defining
constructs (here: script indices) with an optional parent domain for
fallback lookup; the root global domain has no parent. `domain.rs` is
not in the excerpt. -/
inductive Domain where
  | global (bindings : List (String × Nat))
  | child (bindings : List (String × Nat)) (parent : Domain)
deriving DecidableEq, Repr

/-- Modelled from the spec: installing one qualified-name binding into a
domain's local bindings. -/
def Domain.define (d : Domain) (name : String) (script : Nat) : Domain :=
  match d with
  | .global bs => .global ((name, script) :: bs)
  | .child bs p => .child ((name, script) :: bs) p

/-- Modelled from the spec: the built-in class prototype objects installed by
the player-globals loader (`SystemPrototypes` lives in `globals.rs`, not in
the excerpt); claims only carry this value around, so prototypes are
object ids keyed by class name. -/
structure SystemPrototypes where
  protos : List (String × Nat)
deriving DecidableEq, Repr

/-- The state of an AVM2 interpreter (`struct Avm2` in `avm2.rs`):
the operand stack, the global scope domain, and the optional
system-prototype cache (`None` until `load_player_globals` completes). -/
structure Avm2 where
  stack : List Value
  globals : Domain
  system_prototypes : Option SystemPrototypes
deriving DecidableEq, Repr

/-- `Avm2::push`: append a value to the operand stack (top = list head).
Always succeeds. -/
def Avm2.push (s : Avm2) (v : Value) : Avm2 :=
  { s with stack := v :: s.stack }

/-- `Avm2::pop`: remove and return the top value; on an empty stack return
`Value.undefined` instead of failing. The middle component records whether
the `log::warn!("Avm1::pop: Stack underflow")` call fired. -/
def Avm2.pop (s : Avm2) : Value × Bool × Avm2 :=
  match s.stack with
  | [] => (Value.undefined, true, s)
  | v :: rest => (v, false, { s with stack := rest })

/-- `Avm2::pop_args`: build a vector of `arg_count` slots (prefilled with
`Undefined` by `args.resize`) and fill it by popping into the slots from the
last index down (`args.iter_mut().rev()`), so the first pop lands in the last
slot. Returns the argument list and the resulting state. -/
def Avm2.pop_args (s : Avm2) (arg_count : Nat) : List Value × Avm2 :=
  match arg_count with
  | 0 => ([], s)
  | m + 1 =>
    let p := s.pop
    let r := p.2.2.pop_args m
    (r.1 ++ [p.1], r.2)

/-- `Avm2::global_domain`: accessor for the root domain. -/
def Avm2.global_domain (s : Avm2) : Domain :=
  s.globals

/-- A call that may abort the whole process instead of returning:
`aborted` models a Rust panic (here: `Option::unwrap` on `None`), which is
not an error value handed to the caller. -/
inductive AbortOr (α : Type) where
  | aborted
  | ok (a : α)
deriving DecidableEq, Repr

/-- `Avm2::prototypes`: `self.system_prototypes.as_ref().unwrap()` — returns
the cached system prototypes, and panics (aborts the process) if the cache
has not been populated yet. No error value exists on the panic path. -/
def Avm2.prototypes (s : Avm2) : AbortOr SystemPrototypes :=
  match s.system_prototypes with
  | none => .aborted
  | some p => .ok p

/-- Pushing a list of values left to right (`vs.head!` is pushed first). -/
def Avm2.pushList (s : Avm2) (vs : List Value) : Avm2 :=
  vs.foldl Avm2.push s

/-- Performing `n` consecutive `pop` calls, collecting the popped values in
pop order (first popped value first). -/
def Avm2.popN (s : Avm2) (n : Nat) : List Value × Avm2 :=
  match n with
  | 0 => ([], s)
  | m + 1 =>
    let p := s.pop
    let r := p.2.2.popN m
    (p.1 :: r.1, r.2)

/-- One operand-stack operation, for quantifying over arbitrary sequences of
`push`, `pop` and `pop_args` calls. -/
inductive StackOp where
  | pushOp (v : Value)
  | popOp
  | popArgsOp (n : Nat)
deriving DecidableEq, Repr

/-- Apply one stack operation to an interpreter state (results of `pop` /
`pop_args` are discarded, only the state evolves). -/
def Avm2.applyOp (s : Avm2) : StackOp → Avm2
  | .pushOp v => s.push v
  | .popOp => s.pop.2.2
  | .popArgsOp n => (s.pop_args n).2

/-- Apply a sequence of stack operations left to right. -/
def Avm2.applyOps (s : Avm2) (ops : List StackOp) : Avm2 :=
  ops.foldl Avm2.applyOp s

/-! ## The `load_abc` pipeline

`TranslationUnit`, `Script` and the external bytecode reader live outside the
excerpt (`script.rs` and the `swf` crate); they are modelled from the spec as
noted per definition. `avm2.rs` itself contributes the `load_abc` driver:
parse-or-error, then `for i in (0..abc_file.scripts.len()).rev()` instantiate
script `i` and, when `lazy_init` is false, force its globals. -/

/-- Modelled from the spec: one top-level code unit of a parsed container —
the qualified names its bindings define, and whether its one-time global
initializer succeeds when run (execution errors surface as failure of the
enclosing entry point). -/
structure ScriptDef where
  names : List String
  initOk : Bool
deriving DecidableEq, Repr

/-- Modelled from the spec: a parsed bytecode container (`AbcFile`), consumed
here only through enumeration of its scripts by index. -/
structure AbcFile where
  scripts : List ScriptDef
deriving DecidableEq, Repr

/-- Error taxonomy of the `load_abc` path: a parse/format error from the
external reader, or an execution error inside a script initializer (boxed in
the source as one opaque `Error`). -/
inductive VmError where
  | parse (e : String)
  | exec
deriving DecidableEq, Repr

/-- Modelled from the spec: a `Script` instance — its container index, its
definition, and the memoization flag recording that its global initializer
has already run (`inited = true`). -/
structure Script where
  idx : Nat
  sdef : ScriptDef
  inited : Bool
deriving DecidableEq, Repr

/-- Modelled from the spec: a loaded container — the shared parsed file, the
domain it installs into, and the per-index cache of `Script` instances. -/
structure TranslationUnit where
  abc : AbcFile
  domain : Domain
  cache : List (Nat × Script)
deriving DecidableEq, Repr

/-- Observable events of the loading pipeline: a script being instantiated
(`load_script` constructing a fresh `Script`), and a script's global
initializer running to completion. -/
inductive Event where
  | instantiated (i : Nat)
  | initRan (i : Nat)
deriving DecidableEq, Repr

/-- Index of an instantiation event, if it is one. -/
def Event.instIdx : Event → Option Nat
  | .instantiated i => some i
  | .initRan _ => none

/-- Index of an initializer-run event, if it is one. -/
def Event.initIdx : Event → Option Nat
  | .instantiated _ => none
  | .initRan i => some i

/-- The script indices instantiated in a trace, in order. -/
def instIdxs (evs : List Event) : List Nat :=
  evs.filterMap Event.instIdx

/-- The script indices whose initializers ran in a trace, in order. -/
def initIdxs (evs : List Event) : List Nat :=
  evs.filterMap Event.initIdx

/-- Lookup in the script cache by index. -/
def cacheFind (c : List (Nat × Script)) (i : Nat) : Option Script :=
  match c with
  | [] => none
  | (j, s) :: rest => if j = i then some s else cacheFind rest i

/-- Replace the cached `Script` at index `i` (the shared `Gc` cell being
updated in place in the source). -/
def cacheSet (c : List (Nat × Script)) (i : Nat) (s : Script) :
    List (Nat × Script) :=
  c.map fun p => if p.1 = i then (i, s) else p

/-- `TranslationUnit::from_abc`: wrap a parsed file with its destination
domain; nothing is instantiated yet. -/
def TranslationUnit.from_abc (abc : AbcFile) (domain : Domain) :
    TranslationUnit :=
  ⟨abc, domain, []⟩

/-- Modelled from the spec: `TranslationUnit::load_script` returns the
`Script` for an index, constructing it, installing its bindings into the
domain and caching it on first request; later requests return the cached
instance. Fails on an index with no script entry. The trace records fresh
instantiations. -/
def TranslationUnit.load_script (t : TranslationUnit) (i : Nat) :
    List Event × Except VmError (TranslationUnit × Script) :=
  match cacheFind t.cache i with
  | some s => ([], .ok (t, s))
  | none =>
    match t.abc.scripts.get? i with
    | none => ([], .error .exec)
    | some sd =>
      let s : Script := ⟨i, sd, false⟩
      let d := sd.names.foldl (fun d n => d.define n i) t.domain
      ([.instantiated i], .ok ({ t with domain := d, cache := (i, s) :: t.cache }, s))

/-- Modelled from the spec: `Script::globals` first guarantees, idempotently,
that the initializer has run — a memoized script returns at once; otherwise
the initializer runs (one `initRan` event) and either succeeds, marking the
script initialized, or fails with an execution error. -/
def Script.globals (s : Script) : List Event × Except VmError Script :=
  if s.inited then ([], .ok s)
  else if s.sdef.initOk then ([.initRan s.idx], .ok { s with inited := true })
  else ([], .error .exec)

/-- The `for i in (0..abc_file.scripts.len()).rev()` loop of `load_abc`,
over an explicit index list: load each script and, when `lazy_init` is
false, force its globals (propagating the first error, as `?` does). -/
def loadLoop (t : TranslationUnit) (lazy_init : Bool) :
    List Nat → List Event × Except VmError TranslationUnit
  | [] => ([], .ok t)
  | i :: rest =>
    match t.load_script i with
    | (ev1, .error e) => (ev1, .error e)
    | (ev1, .ok (t1, s)) =>
      if lazy_init then
        let r := loadLoop t1 lazy_init rest
        (ev1 ++ r.1, r.2)
      else
        match s.globals with
        | (evg, .error e) => (ev1 ++ evg, .error e)
        | (evg, .ok s1) =>
          let t2 := { t1 with cache := cacheSet t1.cache i s1 }
          let r := loadLoop t2 lazy_init rest
          (ev1 ++ evg ++ r.1, r.2)

/-- `Avm2::load_abc`: parse the bytes through the external reader (modelled
as the function parameter `read`, per the parse-or-error contract); on
success, bind a fresh `TranslationUnit` to the target domain and instantiate
every contained script from the highest index down to the lowest, forcing
each script's globals when `lazy_init` is false. The parse error is returned
as-is with nothing instantiated. -/
def load_abc (read : List Nat → Except String AbcFile) (abc_bytes : List Nat)
    (lazy_init : Bool) (domain : Domain) :
    List Event × Except VmError TranslationUnit :=
  match read abc_bytes with
  | .error e => ([], .error (.parse e))
  | .ok abc_file =>
    loadLoop (TranslationUnit.from_abc abc_file domain) lazy_init
      (List.range abc_file.scripts.length).reverse

/-! ## The AVM1 two-form text value (`src/core/src/avm1/string.rs`) -/

/-- Backing form of an AVM1 text value (`enum Source` in `string.rs`):
a heap-owned, garbage-collected string (`Owned(Gc<String>)`) or a
process-lifetime constant (`Static(&'static str)`). -/
inductive Source where
  | Owned (s : String)
  | Static (s : String)
deriving DecidableEq, Repr

/-- `struct Avm1String`: a text value wrapping either backing form. -/
structure Avm1String where
  source : Source
deriving DecidableEq, Repr

/-- `Deref for Avm1String`: both forms dereference to their raw text
content (`Owned` through the heap cell, `Static` directly). -/
def Avm1String.deref (a : Avm1String) : String :=
  match a.source with
  | .Owned s => s
  | .Static s => s

/-- The comparisons generated by the `impl_eq!` macro all reduce to
`PartialEq::eq(&self[..], &other[..])`, i.e. to the dereferenced raw text
content of each side (`self[..]` indexes through `Deref`). Equality between
two text values is therefore content equality of their dereferenced forms. -/
def Avm1String.eq (a b : Avm1String) : Bool :=
  a.deref == b.deref

/-! ## Concrete instances used by the witnesses -/

/-- A root global domain with no bindings. -/
def demoDomain : Domain := .global []

/-- A freshly constructed interpreter (`Avm2::new`): empty stack, fresh
global domain, no system prototypes yet. -/
def demoState : Avm2 := ⟨[], demoDomain, none⟩

/-- An interpreter whose stack holds a single value. -/
def demoState1 : Avm2 := ⟨[Value.integer 5], demoDomain, none⟩

/-- A concrete system-prototype cache. -/
def demoProtos : SystemPrototypes := ⟨[("Object", 1)]⟩

/-- An interpreter whose prototype cache has been populated. -/
def demoState2 : Avm2 := ⟨[], demoDomain, some demoProtos⟩

/-- A concrete parsed container with three scripts (indices 0, 1, 2). -/
def demoAbc : AbcFile :=
  ⟨[⟨["s0"], true⟩, ⟨["s1"], true⟩, ⟨["s2"], true⟩]⟩

/-- A concrete external reader: the byte sequence `[1]` parses to `demoAbc`,
anything else is a malformed container. -/
def demoRead : List Nat → Except String AbcFile :=
  fun bytes => if bytes = [1] then .ok demoAbc else .error "not an abc container"

/-! ## Operand-stack lemmas -/

theorem Avm2.pop_args_zero (s : Avm2) : s.pop_args 0 = ([], s) := rfl

theorem Avm2.pop_args_succ (s : Avm2) (m : Nat) :
    s.pop_args (m + 1) =
      ((s.pop.2.2.pop_args m).1 ++ [s.pop.1], (s.pop.2.2.pop_args m).2) := rfl

theorem Avm2.popN_zero (s : Avm2) : s.popN 0 = ([], s) := rfl

theorem Avm2.popN_succ (s : Avm2) (m : Nat) :
    s.popN (m + 1) =
      (s.pop.1 :: (s.pop.2.2.popN m).1, (s.pop.2.2.popN m).2) := rfl

theorem Avm2.pop_cons (v : Value) (rest : List Value) (g : Domain)
    (sp : Option SystemPrototypes) :
    Avm2.pop ⟨v :: rest, g, sp⟩ = (v, false, ⟨rest, g, sp⟩) := rfl

/-- Pushing a list of values left to right prepends their reversal to the
stack and changes nothing else. -/
theorem Avm2.pushList_eq (s : Avm2) (vs : List Value) :
    s.pushList vs = { s with stack := vs.reverse ++ s.stack } := by
  induction vs generalizing s with
  | nil => simp [Avm2.pushList]
  | cons v vs ih =>
    show (s.push v).pushList vs = _
    rw [ih]
    simp [Avm2.push]

/-- Splitting a `pop_args` run: the pops that drain a known top segment `l`
of the stack contribute `l.reverse` at the end of the result, after whatever
the remaining pops on the rest of the stack produce. -/
theorem Avm2.pop_args_split (l : List Value) (n : Nat) (s : Avm2)
    (rest : List Value) (h : s.stack = l ++ rest) :
    s.pop_args (n + l.length) =
      ((({ s with stack := rest }).pop_args n).1 ++ l.reverse,
        (({ s with stack := rest }).pop_args n).2) := by
  induction l generalizing s with
  | nil =>
    obtain ⟨st, g, sp⟩ := s
    simp only [List.nil_append] at h
    subst h
    simp
  | cons v l ih =>
    obtain ⟨st, g, sp⟩ := s
    simp only [List.cons_append] at h
    subst h
    have e1 : n + (v :: l).length = (n + l.length) + 1 := rfl
    rw [e1, Avm2.pop_args_succ, Avm2.pop_cons]
    have ih' := ih ⟨l ++ rest, g, sp⟩ rfl
    simp only at ih' ⊢
    rw [ih']
    simp

/-- `pop_args` on an empty stack yields only `undefined` values and leaves
the state unchanged. -/
theorem Avm2.pop_args_on_empty (n : Nat) (s : Avm2) (h : s.stack = []) :
    s.pop_args n = (List.replicate n Value.undefined, s) := by
  obtain ⟨st, g, sp⟩ := s
  simp only at h
  subst h
  induction n with
  | zero => rfl
  | succ m ih =>
    rw [Avm2.pop_args_succ]
    have hp : Avm2.pop ⟨[], g, sp⟩ = (Value.undefined, true, ⟨[], g, sp⟩) := rfl
    rw [hp]
    simp only
    rw [ih]
    simp [← List.replicate_succ']

/-- Popping more arguments than the stack holds: the first `m` slots come
back `undefined` and the whole stack is drained into the tail of the result
in push order. -/
theorem Avm2.pop_args_over (s : Avm2) (m : Nat) :
    s.pop_args (m + s.stack.length) =
      (List.replicate m Value.undefined ++ s.stack.reverse,
        { s with stack := [] }) := by
  have h := Avm2.pop_args_split s.stack m s [] (by simp)
  rw [Avm2.pop_args_on_empty m _ rfl] at h
  simpa using h

/-- Splitting a `popN` run that drains a known top segment of the stack. -/
theorem Avm2.popN_split (l : List Value) (s : Avm2) (rest : List Value)
    (h : s.stack = l ++ rest) :
    s.popN l.length = (l, { s with stack := rest }) := by
  induction l generalizing s with
  | nil =>
    obtain ⟨st, g, sp⟩ := s
    simp only [List.nil_append] at h
    subst h
    rfl
  | cons v l ih =>
    obtain ⟨st, g, sp⟩ := s
    simp only [List.cons_append] at h
    subst h
    have e1 : (v :: l).length = l.length + 1 := rfl
    rw [e1, Avm2.popN_succ, Avm2.pop_cons]
    have ih' := ih ⟨l ++ rest, g, sp⟩ rfl
    simp only at ih' ⊢
    rw [ih']

/-- `pop` never touches the global domain or the prototype cache. -/
theorem Avm2.pop_preserves (s : Avm2) :
    s.pop.2.2.globals = s.globals ∧
      s.pop.2.2.system_prototypes = s.system_prototypes := by
  obtain ⟨st, g, sp⟩ := s
  cases st <;> exact ⟨rfl, rfl⟩

/-- `pop_args` never touches the global domain or the prototype cache. -/
theorem Avm2.pop_args_preserves (s : Avm2) (n : Nat) :
    (s.pop_args n).2.globals = s.globals ∧
      (s.pop_args n).2.system_prototypes = s.system_prototypes := by
  induction n generalizing s with
  | zero => exact ⟨rfl, rfl⟩
  | succ m ih =>
    rw [Avm2.pop_args_succ]
    have h1 := ih s.pop.2.2
    have h2 := Avm2.pop_preserves s
    exact ⟨h1.1.trans h2.1, h1.2.trans h2.2⟩

/-- Pushing a list and then popping exactly that many arguments returns the
pushed values in push order and restores the original state. -/
theorem Avm2.pushList_pop_args (s : Avm2) (vs : List Value) :
    (s.pushList vs).pop_args vs.length = (vs, s) := by
  rw [Avm2.pushList_eq]
  have h := Avm2.pop_args_split vs.reverse 0
    { s with stack := vs.reverse ++ s.stack } s.stack rfl
  simpa using h

/-! ## Claim theorems: operand stack -/

/-- C1: `pop()` on an interpreter state with an empty operand stack succeeds,
returning the `undefined` value; the only observable effect is the recorded
underflow warning — the state is unchanged. -/
theorem pop_on_empty_stack (s : Avm2) (h : s.stack = []) :
    s.pop = (Value.undefined, true, s) := by
  obtain ⟨st, g, sp⟩ := s
  simp only at h
  subst h
  rfl

theorem pop_on_empty_stack_witness :
    Avm2.pop demoState = (Value.undefined, true, demoState) :=
  pop_on_empty_stack demoState rfl

/-- C2: after pushing `a`, `b`, `c` in that order, `pop_args 3` returns
`[a, b, c]`; in general, pushing any list of values left to right and then
calling `pop_args` with its length returns that list in the original
left-to-right push order (and restores the state). -/
theorem pop_args_returns_push_order :
    (∀ (s : Avm2) (a b c : Value),
        (((s.push a).push b).push c).pop_args 3 = ([a, b, c], s)) ∧
      ∀ (s : Avm2) (vs : List Value),
        (s.pushList vs).pop_args vs.length = (vs, s) := by
  refine ⟨fun s a b c => ?_, Avm2.pushList_pop_args⟩
  exact Avm2.pushList_pop_args s [a, b, c]

/-- C3: for every state and every finite sequence of values, performing the
pushes in order and then that many pops yields exactly the pushed values in
exact reverse push order (and restores the state). -/
theorem push_then_pop_reverse_order (s : Avm2) (vs : List Value) :
    (s.pushList vs).popN vs.length = (vs.reverse, s) := by
  rw [Avm2.pushList_eq]
  have h := Avm2.popN_split vs.reverse
    { s with stack := vs.reverse ++ s.stack } s.stack rfl
  simpa using h

/-- C9: when the stack holds fewer than `n` values, `pop_args n` still
returns exactly `n` values — the first `n - k` are `undefined` and the last
`k` are the stack's values in original push order — and empties the stack. -/
theorem pop_args_underflow (s : Avm2) (n : Nat) (h : s.stack.length < n) :
    s.pop_args n =
      (List.replicate (n - s.stack.length) Value.undefined ++ s.stack.reverse,
        { s with stack := [] }) := by
  have e : (n - s.stack.length) + s.stack.length = n :=
    Nat.sub_add_cancel (le_of_lt h)
  conv_lhs => rw [← e]
  exact Avm2.pop_args_over s (n - s.stack.length)

theorem pop_args_underflow_witness :
    demoState1.stack.length < 3 ∧
      demoState1.pop_args 3 =
        (List.replicate (3 - demoState1.stack.length) Value.undefined ++
            demoState1.stack.reverse,
          { demoState1 with stack := [] }) :=
  ⟨by decide, pop_args_underflow demoState1 3 (by decide)⟩

/-- C10: any sequence of `push`, `pop` and `pop_args` operations leaves the
global domain returned by `global_domain` and the system-prototype cache
unchanged — only the operand stack evolves. -/
theorem stack_ops_preserve_domain_and_prototypes (s : Avm2)
    (ops : List StackOp) :
    (s.applyOps ops).global_domain = s.global_domain ∧
      (s.applyOps ops).system_prototypes = s.system_prototypes := by
  induction ops generalizing s with
  | nil => exact ⟨rfl, rfl⟩
  | cons op ops ih =>
    have h1 := ih (s.applyOp op)
    have h2 : (s.applyOp op).globals = s.globals ∧
        (s.applyOp op).system_prototypes = s.system_prototypes := by
      cases op with
      | pushOp v => exact ⟨rfl, rfl⟩
      | popOp => exact Avm2.pop_preserves s
      | popArgsOp n => exact Avm2.pop_args_preserves s n
    exact ⟨h1.1.trans h2.1, h1.2.trans h2.2⟩

/-! ## Claim theorems: prototype cache -/

/-- C7: `prototypes()` on a state whose system-prototype cache is still
unpopulated (as before `load_player_globals` completes) aborts the process —
no error value is produced, the `AbortOr` result has no error constructor —
and with the cache populated it returns exactly the cached prototypes. -/
theorem prototypes_aborts_when_uninitialized (s : Avm2) :
    (s.system_prototypes = none → s.prototypes = AbortOr.aborted) ∧
      ∀ p, s.system_prototypes = some p → s.prototypes = AbortOr.ok p := by
  constructor
  · intro h
    simp [Avm2.prototypes, h]
  · intro p h
    simp [Avm2.prototypes, h]

theorem prototypes_aborts_when_uninitialized_witness :
    demoState.prototypes = AbortOr.aborted ∧
      demoState2.prototypes = AbortOr.ok demoProtos :=
  ⟨(prototypes_aborts_when_uninitialized demoState).1 rfl,
    (prototypes_aborts_when_uninitialized demoState2).2 demoProtos rfl⟩

/-! ## Claim theorems: two-form text value -/

/-- C8: text-value equality ignores the backing form and is symmetric — a
static-form value equals a heap-owned-form value exactly when their character
contents agree, in both comparison directions, and in general equality holds
exactly when the dereferenced contents coincide. -/
theorem avm1string_eq_ignores_backing_form :
    (∀ s t : String,
        (Avm1String.mk (Source.Static s)).eq (Avm1String.mk (Source.Owned t)) =
          (s == t)) ∧
      (∀ s t : String,
        (Avm1String.mk (Source.Owned s)).eq (Avm1String.mk (Source.Static t)) =
          (s == t)) ∧
      (∀ a b : Avm1String, a.eq b = b.eq a) ∧
      ∀ a b : Avm1String, a.eq b = true ↔ a.deref = b.deref := by
  refine ⟨fun s t => rfl, fun s t => rfl, fun a b => ?_, fun a b => ?_⟩
  · rw [Bool.eq_iff_iff]
    simp only [Avm1String.eq, beq_iff_eq]
    exact eq_comm
  · simp [Avm1String.eq]

theorem avm1string_eq_ignores_backing_form_witness :
    (Avm1String.mk (Source.Static "abc")).eq (Avm1String.mk (Source.Owned "abc")) =
        ("abc" == "abc") ∧
      (Avm1String.mk (Source.Owned "abc")).eq (Avm1String.mk (Source.Static "abd")) =
        ("abc" == "abd") :=
  ⟨avm1string_eq_ignores_backing_form.1 "abc" "abc",
    avm1string_eq_ignores_backing_form.2.1 "abc" "abd"⟩

/-! ## Cache and loader lemmas -/

theorem cacheFind_cons_ne (j : Nat) (s : Script) (c : List (Nat × Script))
    (i : Nat) (h : j ≠ i) : cacheFind ((j, s) :: c) i = cacheFind c i := by
  simp [cacheFind, h]

/-- Updating an index that is not in the cache changes nothing. -/
theorem cacheSet_not_found (c : List (Nat × Script)) (i : Nat) (s : Script)
    (h : cacheFind c i = none) : cacheSet c i s = c := by
  induction c with
  | nil => rfl
  | cons p c ih =>
    obtain ⟨j, x⟩ := p
    by_cases hj : j = i
    · subst hj
      simp [cacheFind] at h
    · rw [cacheFind_cons_ne j x c i hj] at h
      simp [cacheSet, hj] at ih ⊢
      exact ih h

/-- `load_script` on an uncached, in-range index: one instantiation event,
the bindings installed, the fresh uninitialized script cached and returned. -/
theorem load_script_fresh (t : TranslationUnit) (i : Nat) (sd : ScriptDef)
    (h1 : cacheFind t.cache i = none) (h2 : t.abc.scripts[i]? = some sd) :
    t.load_script i =
      ([Event.instantiated i],
        Except.ok
          ({ t with
              domain := sd.names.foldl (fun d n => d.define n i) t.domain,
              cache := (i, ⟨i, sd, false⟩) :: t.cache },
            ⟨i, sd, false⟩)) := by
  simp [TranslationUnit.load_script, h1, h2]

theorem loadLoop_nil (t : TranslationUnit) (lz : Bool) :
    loadLoop t lz [] = ([], Except.ok t) := rfl

/-- One lazy loop step on a successfully loaded script. -/
theorem loadLoop_step_lazy (t t1 : TranslationUnit) (s : Script) (i : Nat)
    (rest : List Nat) (ev1 : List Event)
    (h : t.load_script i = (ev1, Except.ok (t1, s))) :
    loadLoop t true (i :: rest) =
      (ev1 ++ (loadLoop t1 true rest).1, (loadLoop t1 true rest).2) := by
  simp only [loadLoop, h, if_true]

/-- One eager loop step on a successfully loaded script whose initializer
succeeds: the memoized script is written back and the loop continues. -/
theorem loadLoop_step_eager (t t1 : TranslationUnit) (s s1 : Script) (i : Nat)
    (rest : List Nat) (ev1 evg : List Event)
    (h : t.load_script i = (ev1, Except.ok (t1, s)))
    (hg : s.globals = (evg, Except.ok s1)) :
    loadLoop t false (i :: rest) =
      (ev1 ++ evg ++
          (loadLoop { t1 with cache := cacheSet t1.cache i s1 } false rest).1,
        (loadLoop { t1 with cache := cacheSet t1.cache i s1 } false rest).2) := by
  simp only [loadLoop, h, hg, Bool.false_eq_true, if_false]

/-- One eager loop step on a successfully loaded script whose initializer
fails: the error propagates and the loop stops. -/
theorem loadLoop_step_eager_err (t t1 : TranslationUnit) (s : Script) (i : Nat)
    (rest : List Nat) (ev1 evg : List Event) (e : VmError)
    (h : t.load_script i = (ev1, Except.ok (t1, s)))
    (hg : s.globals = (evg, Except.error e)) :
    loadLoop t false (i :: rest) = (ev1 ++ evg, Except.error e) := by
  simp only [loadLoop, h, hg, Bool.false_eq_true, if_false]

/-- The lazy loading loop over distinct, uncached, in-range indices:
the trace is exactly one instantiation event per index, in loop order, the
loop always succeeds, and every cache entry it adds is uninitialized. -/
theorem loadLoop_lazy (idxs : List Nat) (t : TranslationUnit)
    (hnodup : idxs.Nodup)
    (hfresh : ∀ i ∈ idxs, cacheFind t.cache i = none)
    (hrange : ∀ i ∈ idxs, i < t.abc.scripts.length) :
    (loadLoop t true idxs).1 = idxs.map Event.instantiated ∧
      ∃ t', (loadLoop t true idxs).2 = Except.ok t' ∧
        ∀ p ∈ t'.cache, p ∈ t.cache ∨ p.2.inited = false := by
  induction idxs generalizing t with
  | nil => exact ⟨rfl, t, rfl, fun p hp => Or.inl hp⟩
  | cons i rest ih =>
    have hfi : cacheFind t.cache i = none := hfresh i (by simp)
    have hri : i < t.abc.scripts.length := hrange i (by simp)
    obtain ⟨sd, hsd⟩ : ∃ sd, t.abc.scripts[i]? = some sd := by
      cases hg : t.abc.scripts[i]? with
      | none =>
        rw [List.getElem?_eq_none_iff] at hg
        exact absurd hg (Nat.not_le.mpr hri)
      | some sd => exact ⟨sd, rfl⟩
    obtain ⟨hni, hnd⟩ := List.nodup_cons.mp hnodup
    have hls := load_script_fresh t i sd hfi hsd
    rw [loadLoop_step_lazy t _ _ i rest _ hls]
    have hfresh1 : ∀ j ∈ rest,
        cacheFind ((i, (⟨i, sd, false⟩ : Script)) :: t.cache) j = none := by
      intro j hj
      have hji : i ≠ j := fun e => hni (e ▸ hj)
      rw [cacheFind_cons_ne i _ t.cache j hji]
      exact hfresh j (List.mem_cons_of_mem i hj)
    have ihr := ih
      { t with
          domain := sd.names.foldl (fun d n => d.define n i) t.domain,
          cache := (i, (⟨i, sd, false⟩ : Script)) :: t.cache }
      hnd hfresh1 (fun j hj => hrange j (List.mem_cons_of_mem i hj))
    obtain ⟨htr, t', hok2, hcache⟩ := ihr
    refine ⟨by simp [htr], t', hok2, fun p hp => ?_⟩
    rcases hcache p hp with hmem | hinit
    · simp only [List.mem_cons] at hmem
      rcases hmem with rfl | hmem
      · exact Or.inr rfl
      · exact Or.inl hmem
    · exact Or.inr hinit

/-- The eager loading loop over distinct, uncached, in-range indices: the
instantiated indices always form a prefix of the index list in loop order,
and on success every index was instantiated and had its initializer run, in
loop order, with every cache entry ending up initialized. -/
theorem loadLoop_eager (idxs : List Nat) (t : TranslationUnit)
    (hnodup : idxs.Nodup)
    (hfresh : ∀ i ∈ idxs, cacheFind t.cache i = none)
    (hrange : ∀ i ∈ idxs, i < t.abc.scripts.length) :
    instIdxs (loadLoop t false idxs).1 =
        idxs.take (instIdxs (loadLoop t false idxs).1).length ∧
      ∀ t', (loadLoop t false idxs).2 = Except.ok t' →
        instIdxs (loadLoop t false idxs).1 = idxs ∧
          initIdxs (loadLoop t false idxs).1 = idxs ∧
          ((∀ p ∈ t.cache, p.2.inited = true) →
            ∀ p ∈ t'.cache, p.2.inited = true) := by
  induction idxs generalizing t with
  | nil =>
    refine ⟨rfl, fun t' h => ?_⟩
    rw [loadLoop_nil] at h
    simp only [Except.ok.injEq] at h
    subst h
    exact ⟨rfl, rfl, fun hc => hc⟩
  | cons i rest ih =>
    have hfi : cacheFind t.cache i = none := hfresh i (by simp)
    have hri : i < t.abc.scripts.length := hrange i (by simp)
    obtain ⟨sd, hsd⟩ : ∃ sd, t.abc.scripts[i]? = some sd := by
      cases hg : t.abc.scripts[i]? with
      | none =>
        rw [List.getElem?_eq_none_iff] at hg
        exact absurd hg (Nat.not_le.mpr hri)
      | some sd => exact ⟨sd, rfl⟩
    obtain ⟨hni, hnd⟩ := List.nodup_cons.mp hnodup
    have hls := load_script_fresh t i sd hfi hsd
    by_cases hok : sd.initOk
    · have hg : Script.globals ⟨i, sd, false⟩ =
          ([Event.initRan i], Except.ok ⟨i, sd, true⟩) := by
        simp [Script.globals, hok]
      rw [loadLoop_step_eager t _ _ _ i rest _ _ hls hg]
      have hcset : cacheSet ((i, (⟨i, sd, false⟩ : Script)) :: t.cache) i
          ⟨i, sd, true⟩ = (i, (⟨i, sd, true⟩ : Script)) :: t.cache := by
        rw [show cacheSet ((i, (⟨i, sd, false⟩ : Script)) :: t.cache) i
              ⟨i, sd, true⟩ =
            (i, (⟨i, sd, true⟩ : Script)) :: cacheSet t.cache i ⟨i, sd, true⟩
          from by simp [cacheSet]]
        rw [cacheSet_not_found t.cache i _ hfi]
      simp only [hcset]
      have hfresh1 : ∀ j ∈ rest,
          cacheFind ((i, (⟨i, sd, true⟩ : Script)) :: t.cache) j = none := by
        intro j hj
        have hji : i ≠ j := fun e => hni (e ▸ hj)
        rw [cacheFind_cons_ne i _ t.cache j hji]
        exact hfresh j (List.mem_cons_of_mem i hj)
      have ihr := ih
        { t with
            domain := sd.names.foldl (fun d n => d.define n i) t.domain,
            cache := (i, (⟨i, sd, true⟩ : Script)) :: t.cache }
        hnd hfresh1 (fun j hj => hrange j (List.mem_cons_of_mem i hj))
      obtain ⟨hpre, hsucc⟩ := ihr
      constructor
      · simp only [instIdxs, List.filterMap_append, List.filterMap_cons]
        simp only [Event.instIdx, List.filterMap_nil]
        simp only [instIdxs] at hpre
        simp only [List.cons_append, List.nil_append, List.length_cons,
          List.take_succ_cons]
        exact congrArg (List.cons i) hpre
      · intro t' ht'
        obtain ⟨hinst, hinit, hcache⟩ := hsucc t' ht'
        refine ⟨?_, ?_, ?_⟩
        · simp only [instIdxs, List.filterMap_append, List.filterMap_cons,
            Event.instIdx, List.filterMap_nil] at hinst ⊢
          simp [hinst]
        · simp only [initIdxs, List.filterMap_append, List.filterMap_cons,
            Event.initIdx, List.filterMap_nil] at hinit ⊢
          simp [hinit]
        · intro hc
          refine hcache fun p hp => ?_
          simp only [List.mem_cons] at hp
          rcases hp with rfl | hp
          · rfl
          · exact hc p hp
    · have hg : Script.globals ⟨i, sd, false⟩ = ([], Except.error VmError.exec) := by
        simp [Script.globals, hok]
      rw [loadLoop_step_eager_err t _ _ i rest _ _ VmError.exec hls hg]
      constructor
      · simp [instIdxs, Event.instIdx]
      · intro t' ht'
        simp at ht'

theorem instIdxs_map_inst (l : List Nat) :
    instIdxs (l.map Event.instantiated) = l := by
  induction l with
  | nil => rfl
  | cons a l ih => simp [instIdxs, Event.instIdx, List.filterMap_cons] at ih ⊢; exact ih

theorem initIdxs_map_inst (l : List Nat) :
    initIdxs (l.map Event.instantiated) = [] := by
  induction l with
  | nil => rfl
  | cons a l ih =>
    simp only [initIdxs, Event.initIdx, List.filterMap_cons, List.map_cons] at ih ⊢
    exact ih

/-! ## Claim theorems: `load_abc` -/

/-- C4: for a well-formed container (the reader succeeds), the scripts are
instantiated from the highest index down to the lowest: the instantiated
indices always form an initial segment of the descending index list, and
whenever `load_abc` succeeds they are exactly the full descending list —
with scripts `[0, 1, 2]`, script 2 before script 1 before script 0. -/
theorem load_abc_descending_order
    (read : List Nat → Except String AbcFile) (abc_bytes : List Nat)
    (lazy_init : Bool) (domain : Domain) (abc_file : AbcFile)
    (h : read abc_bytes = Except.ok abc_file) :
    instIdxs (load_abc read abc_bytes lazy_init domain).1 =
        ((List.range abc_file.scripts.length).reverse).take
          (instIdxs (load_abc read abc_bytes lazy_init domain).1).length ∧
      ∀ t', (load_abc read abc_bytes lazy_init domain).2 = Except.ok t' →
        instIdxs (load_abc read abc_bytes lazy_init domain).1 =
          (List.range abc_file.scripts.length).reverse := by
  have hl : load_abc read abc_bytes lazy_init domain =
      loadLoop (TranslationUnit.from_abc abc_file domain) lazy_init
        (List.range abc_file.scripts.length).reverse := by
    simp [load_abc, h]
  rw [hl]
  have hnodup : (List.range abc_file.scripts.length).reverse.Nodup := by
    simp [List.nodup_range]
  have hfresh : ∀ i ∈ (List.range abc_file.scripts.length).reverse,
      cacheFind (TranslationUnit.from_abc abc_file domain).cache i = none :=
    fun i _ => rfl
  have hrange : ∀ i ∈ (List.range abc_file.scripts.length).reverse,
      i < (TranslationUnit.from_abc abc_file domain).abc.scripts.length := by
    intro i hi
    rw [List.mem_reverse] at hi
    exact List.mem_range.mp hi
  cases lazy_init with
  | true =>
    obtain ⟨htr, t'', hok2, _⟩ := loadLoop_lazy _ _ hnodup hfresh hrange
    rw [htr, instIdxs_map_inst]
    exact ⟨(List.take_length _).symm, fun t' _ => rfl⟩
  | false =>
    obtain ⟨hpre, hsucc⟩ := loadLoop_eager _ _ hnodup hfresh hrange
    exact ⟨hpre, fun t' ht' => (hsucc t' ht').1⟩

theorem load_abc_descending_order_witness :
    demoRead [1] = Except.ok demoAbc ∧
      instIdxs (load_abc demoRead [1] false demoDomain).1 =
        ((List.range demoAbc.scripts.length).reverse).take
          (instIdxs (load_abc demoRead [1] false demoDomain).1).length :=
  ⟨rfl, (load_abc_descending_order demoRead [1] false demoDomain demoAbc rfl).1⟩

/-- C5: for a well-formed container, with `lazy_init = true` no script
initializer runs during `load_abc` and every cached script is left
uninitialized, so that its first `globals` request (and only that) runs the
initializer; with `lazy_init = false`, on success every script's initializer
has run before `load_abc` returns, in the same descending index order, and
every cached script ends up initialized. -/
theorem load_abc_lazy_defers_eager_forces
    (read : List Nat → Except String AbcFile) (abc_bytes : List Nat)
    (domain : Domain) (abc_file : AbcFile)
    (h : read abc_bytes = Except.ok abc_file) :
    (initIdxs (load_abc read abc_bytes true domain).1 = [] ∧
        ∀ t', (load_abc read abc_bytes true domain).2 = Except.ok t' →
          ∀ p ∈ t'.cache, p.2.inited = false) ∧
      (∀ s : Script, s.inited = false → s.sdef.initOk = true →
          s.globals =
            ([Event.initRan s.idx], Except.ok { s with inited := true })) ∧
      ∀ t', (load_abc read abc_bytes false domain).2 = Except.ok t' →
        initIdxs (load_abc read abc_bytes false domain).1 =
            (List.range abc_file.scripts.length).reverse ∧
          ∀ p ∈ t'.cache, p.2.inited = true := by
  have hlt : load_abc read abc_bytes true domain =
      loadLoop (TranslationUnit.from_abc abc_file domain) true
        (List.range abc_file.scripts.length).reverse := by
    simp [load_abc, h]
  have hlf : load_abc read abc_bytes false domain =
      loadLoop (TranslationUnit.from_abc abc_file domain) false
        (List.range abc_file.scripts.length).reverse := by
    simp [load_abc, h]
  have hnodup : (List.range abc_file.scripts.length).reverse.Nodup := by
    simp [List.nodup_range]
  have hfresh : ∀ i ∈ (List.range abc_file.scripts.length).reverse,
      cacheFind (TranslationUnit.from_abc abc_file domain).cache i = none :=
    fun i _ => rfl
  have hrange : ∀ i ∈ (List.range abc_file.scripts.length).reverse,
      i < (TranslationUnit.from_abc abc_file domain).abc.scripts.length := by
    intro i hi
    rw [List.mem_reverse] at hi
    exact List.mem_range.mp hi
  refine ⟨?_, ?_, ?_⟩
  · rw [hlt]
    obtain ⟨htr, t'', hok2, hcache⟩ := loadLoop_lazy _ _ hnodup hfresh hrange
    refine ⟨by rw [htr, initIdxs_map_inst], fun t' ht' => ?_⟩
    rw [hok2] at ht'
    simp only [Except.ok.injEq] at ht'
    subst ht'
    intro p hp
    rcases hcache p hp with hmem | hinit
    · exact absurd hmem (List.not_mem_nil p)
    · exact hinit
  · intro s hin hok
    simp [Script.globals, hin, hok]
  · rw [hlf]
    obtain ⟨hpre, hsucc⟩ := loadLoop_eager _ _ hnodup hfresh hrange
    intro t' ht'
    obtain ⟨hinst, hinit, hcache⟩ := hsucc t' ht'
    exact ⟨hinit, hcache fun p hp => absurd hp (List.not_mem_nil p)⟩

theorem load_abc_lazy_defers_eager_forces_witness :
    demoRead [1] = Except.ok demoAbc ∧
      initIdxs (load_abc demoRead [1] true demoDomain).1 = [] :=
  ⟨rfl, (load_abc_lazy_defers_eager_forces demoRead [1] demoDomain demoAbc rfl).1.1⟩

/-- C6: when the bytes are not a well-formed container (the reader fails),
`load_abc` returns the underlying parse error, no instantiation event has
occurred, and no loaded container is produced — the target domain and the
interpreter state are untouched. -/
theorem load_abc_parse_error
    (read : List Nat → Except String AbcFile) (abc_bytes : List Nat)
    (lazy_init : Bool) (domain : Domain) (e : String)
    (h : read abc_bytes = Except.error e) :
    load_abc read abc_bytes lazy_init domain =
      ([], Except.error (VmError.parse e)) := by
  simp [load_abc, h]

theorem load_abc_parse_error_witness :
    demoRead [9] = Except.error "not an abc container" ∧
      load_abc demoRead [9] true demoDomain =
        ([], Except.error (VmError.parse "not an abc container")) :=
  ⟨rfl, load_abc_parse_error demoRead [9] true demoDomain
    "not an abc container" rfl⟩

end Ruffle
